import Mathlib

set_option autoImplicit false

/-! Embedding of the concurrency substrate of the QuantTrading repository:
the Michael-Scott lock-free queue (src/base/common/lock_free/lock_free_queue.h),
the mutex-guarded SafeQueue (src/base/common/safe_queue/safe_queue.h), and the
two ThreadPool variants built on them.  Executions are sequential
(single-threaded interleavings of whole operations): every compare-exchange
observes the value the surrounding loop last loaded, so it succeeds unless the
loop itself changed the shared variable in between.  Machine pointers become
natural-number addresses into an explicit heap; the null pointer is
`Option.none`; dereferencing an invalid pointer (undefined behaviour in C++)
makes the modelled operation return `none`. -/

/-- Node of the lock-free queue (`struct Node` in lock_free_queue.h):
`data` models the `std::unique_ptr<T>` payload (`none` = null pointer, as in
the sentinel), `next` the atomic next pointer (`none` = nullptr). -/
structure LFNode (T : Type) where
  data : Option T
  next : Option Nat

/-- State of a `LockFreeQueue<T>`: an explicit heap of allocated nodes
(addresses are list indices; a `none` cell is a deleted node) together with
the nullable atomic `head_` and `tail_` pointers. -/
structure LockFreeQueue (T : Type) where
  heap : List (Option (LFNode T))
  head : Option Nat
  tail : Option Nat

namespace LockFreeQueue

variable {T : Type}

/-- Read the node at a heap address; `none` for a deleted or out-of-range
address (dereferencing such an address is undefined behaviour in C++). -/
def hGet : List (Option (LFNode T)) → Nat → Option (LFNode T)
  | [], _ => none
  | c :: _, 0 => c
  | _ :: h, n + 1 => hGet h n

/-- Overwrite the heap cell at an address (out-of-range writes are dropped;
they never occur on the states we reason about). -/
def hSet : List (Option (LFNode T)) → Nat → Option (LFNode T) → List (Option (LFNode T))
  | [], _, _ => []
  | _ :: h, 0, c => c :: h
  | x :: h, n + 1, c => x :: hSet h n c

/-- `LockFreeQueue()`: `head_` and `tail_` point at a fresh sentinel node. -/
def init : LockFreeQueue T := ⟨[some ⟨none, none⟩], some 0, some 0⟩

/-- The retry loop of `enqueue`, with `newAddr` the address of the node that
was allocated for the value.  Sequential compare-exchange semantics: the CAS
succeeds iff the shared variable still holds the value held in the local
variable.  `fuel` bounds the retries; `none` means the loop dereferenced an
invalid pointer (undefined behaviour) or ran out of fuel. -/
def enqueueLoop (newAddr : Nat) : LockFreeQueue T → Nat → Nat → Option (LockFreeQueue T)
  | _, _, 0 => none
  | q, oldTail, fuel + 1 =>
    match hGet q.heap oldTail with
    | none => none
    | some nd =>
      match nd.next with
      | some nxt =>
        if q.tail = some oldTail then
          enqueueLoop newAddr { q with tail := some nxt } oldTail fuel
        else
          match q.tail with
          | some t => enqueueLoop newAddr q t fuel
          | none => none
      | none =>
        let q1 : LockFreeQueue T :=
          { q with heap := hSet q.heap oldTail (some { nd with next := some newAddr }) }
        if q1.tail = some oldTail then some { q1 with tail := some newAddr }
        else some q1

/-- `enqueue(value)`: allocate a node at the next fresh address, then run the
linking loop starting from the loaded `tail_`.  A null `tail_` (the state a
move leaves behind) is dereferenced by the loop without a check: undefined
behaviour, modelled as `none`. -/
def enqueue (q : LockFreeQueue T) (v : T) : Option (LockFreeQueue T) :=
  let newAddr := q.heap.length
  let q1 : LockFreeQueue T := { q with heap := q.heap ++ [some ⟨some v, none⟩] }
  match q1.tail with
  | none => none
  | some t => enqueueLoop newAddr q1 t (q1.heap.length + 1)

/-- The retry loop of `dequeue`.  The result encodes the C++ outcomes:
`some (none, q)` models `return false` with the out-parameter untouched,
`some (some v, q1)` models `return true` with `v` moved into the
out-parameter, and `none` models undefined behaviour. -/
def dequeueLoop : LockFreeQueue T → Option Nat → Nat → Option (Option T × LockFreeQueue T)
  | _, _, 0 => none
  | q, oldHead, fuel + 1 =>
    match oldHead with
    | none => some (none, q)
    | some h =>
      match hGet q.heap h with
      | none => none
      | some nd =>
        match nd.next with
        | none => some (none, q)
        | some nxt =>
          if q.head = some h then
            match hGet q.heap nxt with
            | none => none
            | some nb =>
              match nb.data with
              | none => none
              | some v =>
                some (some v, { q with head := some nxt, heap := hSet q.heap h none })
          else
            dequeueLoop q q.head fuel

/-- `dequeue(value)`: run the loop from the loaded `head_` (checked for null
inside the loop before any dereference). -/
def dequeue (q : LockFreeQueue T) : Option (Option T × LockFreeQueue T) :=
  dequeueLoop q q.head (q.heap.length + 1)

/-- `while (dequeue(dummy)) {}` with a retry bound; `none` = out of fuel or
undefined behaviour inside a dequeue. -/
def clearLoop : LockFreeQueue T → Nat → Option (LockFreeQueue T)
  | _, 0 => none
  | q, fuel + 1 =>
    match dequeue q with
    | none => none
    | some (none, q1) => some q1
    | some (some _, q1) => clearLoop q1 fuel

/-- `clear()`: dequeue until the queue reports empty. -/
def clear (q : LockFreeQueue T) : Option (LockFreeQueue T) :=
  clearLoop q (q.heap.length + 1)

/-- The state the move constructor / move assignment leaves in the source
queue: both `head_` and `tail_` were exchanged to nullptr (the nodes now
belong to the destination queue). -/
def movedFrom (q : LockFreeQueue T) : LockFreeQueue T :=
  { q with head := none, tail := none }

/-- Enqueue a whole list in order. -/
def enqueueAll (q : LockFreeQueue T) : List T → Option (LockFreeQueue T)
  | [] => some q
  | v :: vs =>
    match enqueue q v with
    | none => none
    | some q1 => enqueueAll q1 vs

/-- Dequeue `n` times, collecting the values; fails if any call returns false
or hits undefined behaviour. -/
def dequeueN : LockFreeQueue T → Nat → Option (List T × LockFreeQueue T)
  | q, 0 => some ([], q)
  | q, n + 1 =>
    match dequeue q with
    | some (some v, q1) => (dequeueN q1 n).map (fun p => (v :: p.1, p.2))
    | _ => none

end LockFreeQueue

/-- `SafeQueue<T>`: under the mutex the observable state is the deque
contents; the lock itself is invisible to sequential semantics. -/
structure SafeQueue (T : Type) where
  data : List T

namespace SafeQueue

variable {T : Type}

/-- `push`: append at the back (`data_.push_back`), then notify one waiter. -/
def push (q : SafeQueue T) (v : T) : SafeQueue T := ⟨q.data ++ [v]⟩

/-- `pop(value)`: `(none, q)` models `return false` with `value` untouched on
an empty deque; `(some v, q1)` models `return true` after moving the front
element into `value` and popping it. -/
def pop (q : SafeQueue T) : Option T × SafeQueue T :=
  match q.data with
  | [] => (none, q)
  | x :: xs => (some x, ⟨xs⟩)

/-- `block_pop(value)`: waits on `cv_` while the deque is empty; `none`
models a call that has not returned (still waiting).  When it returns, the
triple holds the C++ `bool` result (the function's only return statement is
`return true`), the value moved out of the front, and the remaining queue. -/
def block_pop (q : SafeQueue T) : Option (Bool × T × SafeQueue T) :=
  match q.data with
  | [] => none
  | x :: xs => some (true, x, ⟨xs⟩)

/-- Push a whole list in order. -/
def pushAll (q : SafeQueue T) : List T → SafeQueue T
  | [] => q
  | v :: vs => pushAll (push q v) vs

/-- Pop `n` times, collecting values; fails if any pop returns false. -/
def popN : SafeQueue T → Nat → Option (List T × SafeQueue T)
  | q, 0 => some ([], q)
  | q, n + 1 =>
    match pop q with
    | (some v, q1) => (popN q1 n).map (fun p => (v :: p.1, p.2))
    | (none, _) => none

end SafeQueue

/-- Modulus of `size_t` arithmetic, 2^64 (the pools count tasks in a
`std::atomic<size_t>`). -/
def W64 : Nat := 18446744073709551616

/-- `fetch_sub(1)` on a `size_t` counter: wraps around at zero. -/
def dec64 (c : Nat) : Nat := (c + (W64 - 1)) % W64

/-- A queued task, i.e. the wrapper lambda `submit` pushes: the `Except`
records whether the wrapped user callable throws when invoked (the wrapper
itself always returns: the packaged task captures user exceptions and the
wrapper catches the rest). -/
def PoolTask : Type := Except String Unit

/-- State of the SafeQueue-based `ThreadPool`
(src/base/common/thread_pool/thread_pool.h, concatenated into
safe_queue.cpp).  `wait_for_completion` is the plain `bool` member
`wait_for_completion_`; `task_count` is the `std::atomic<size_t>`
`task_count_`; `task_queue` holds the queued wrapper lambdas.  The fields
`submitted`, `finished`, `discarded` and `executed` are ghost history
variables: successful submits, wrappers run to completion, tasks dropped by
`clear_queue`, and the tasks actually invoked, in order.  The worker thread
vector is not part of the model. -/
structure ThreadPool where
  is_running : Bool
  wait_for_completion : Bool
  task_count : Nat
  task_queue : List PoolTask
  submitted : Nat
  finished : Nat
  discarded : Nat
  executed : List PoolTask

namespace ThreadPool

/-- The state the private constructor establishes:
`is_running_(true), task_count_(0), wait_for_completion_(true)`, empty
queue. -/
def initial : ThreadPool := ⟨true, true, 0, [], 0, 0, 0, []⟩

/-- `pending_tasks()`: a load of `task_count_`. -/
def pending_tasks (p : ThreadPool) : Nat := p.task_count

/-- `submit`: if not running, throw `"ThreadPool is stopped"` before touching
any state; otherwise increment `task_count_` and push the wrapper lambda. -/
def submit (p : ThreadPool) (t : PoolTask) : Except String ThreadPool :=
  if p.is_running then
    Except.ok { p with
      task_count := (p.task_count + 1) % W64
      task_queue := p.task_queue ++ [t]
      submitted := p.submitted + 1 }
  else
    Except.error "ThreadPool is stopped"

/-- A worker pops one wrapper off the queue and runs it (the wrapper invokes
the packaged task with a try/catch and then does `fetch_sub(1)` on
`task_count_`); on an empty queue the worker just yields. -/
def runOne (p : ThreadPool) : ThreadPool :=
  match p.task_queue with
  | [] => p
  | t :: r => { p with
      task_queue := r
      task_count := dec64 p.task_count
      finished := p.finished + 1
      executed := p.executed ++ [t] }

/-- The pop-and-discard loop of `clear_queue`: each popped task decrements
`task_count_`; returns the final counter and discard tally. -/
def clearAux : List PoolTask → Nat → Nat → Nat × Nat
  | [], c, d => (c, d)
  | _ :: r, c, d => clearAux r (dec64 c) (d + 1)

/-- `clear_queue()`: pop every queued task, decrementing the counter for
each, then notify waiters. -/
def clear_queue (p : ThreadPool) : ThreadPool :=
  { p with
    task_queue := []
    task_count := (clearAux p.task_queue p.task_count p.discarded).1
    discarded := (clearAux p.task_queue p.task_count p.discarded).2 }

/-- `is_running_.exchange(false)`: returns the prior flag, stores `false`.
Note that it does not touch `wait_for_completion_`. -/
def stopExchange (p : ThreadPool) : Bool × ThreadPool :=
  (p.is_running, { p with is_running := false })

/-- `stop(wait_for_completion)`: early-return if the exchange saw `false`;
otherwise clear the queue when not waiting.  `wait_all` and the joins block
but mutate no modelled state.  `wait_for_completion_` is never assigned. -/
def stop (p : ThreadPool) (waitForCompletion : Bool) : ThreadPool :=
  let pr := stopExchange p
  if pr.1 = false then pr.2
  else if waitForCompletion then pr.2 else clear_queue pr.2

/-- Run `n` queue elements (the worker drain loop, unrolled). -/
def runN : ThreadPool → Nat → ThreadPool
  | p, 0 => p
  | p, n + 1 => runN (runOne p) n

/-- `while (task_queue_.pop(task)) task();` — drain the whole queue. -/
def runAll (p : ThreadPool) : ThreadPool := runN p p.task_queue.length

/-- The phase of `worker_thread` after its main loop observed
`is_running_ == false`: `if (wait_for_completion_) { drain and execute }`,
else fall off the end of the function. -/
def workerFinal (p : ThreadPool) : ThreadPool :=
  if p.wait_for_completion then runAll p else p

end ThreadPool

/-- Atomic events of a sequential interleaving of pool operations: a submit
call (ignored if the pool rejects it), a worker executing one queued task (a
no-op yield on an empty queue; workers drain with the same pops both before
and after stop), and a stop call. -/
inductive PoolEvent : Type where
  | submit (t : PoolTask)
  | exec
  | stopCall (waitForCompletion : Bool)

/-- Apply one event to the pool state.  A submit rejected by the running
check raises to the caller and leaves the pool untouched. -/
def applyEvent (p : ThreadPool) : PoolEvent → ThreadPool
  | PoolEvent.submit t =>
    match ThreadPool.submit p t with
    | Except.ok p1 => p1
    | Except.error _ => p
  | PoolEvent.exec => ThreadPool.runOne p
  | PoolEvent.stopCall w => ThreadPool.stop p w

/-- The pool state after a sequence of events starting from construction. -/
def runTrace (evs : List PoolEvent) : ThreadPool :=
  evs.foldl applyEvent ThreadPool.initial

/-- State of the lock-free-queue-based `ThreadPool` variant
(thread_pool.h/.cpp concatenated into safe_queue.cpp): running flag,
`task_count_`, and queue contents. -/
structure ThreadPoolLF where
  is_running : Bool
  task_count : Nat
  task_queue : List PoolTask

namespace ThreadPoolLF

/-- `submit` of the lock-free variant: throws
`"ThreadPool is not running"` when stopped, before touching any state. -/
def submit (p : ThreadPoolLF) (t : PoolTask) : Except String ThreadPoolLF :=
  if p.is_running then
    Except.ok { p with
      task_count := (p.task_count + 1) % W64
      task_queue := p.task_queue ++ [t] }
  else
    Except.error "ThreadPool is not running"

/-- `stop` of the lock-free variant: `is_running_.exchange(false)`; on a
prior `false` it returns at once (the exchange already stored `false`);
otherwise it optionally blocks in `wait_all` and joins — neither mutates the
modelled state, and this variant never clears the queue. -/
def stop (p : ThreadPoolLF) (waitForCompletion : Bool) : ThreadPoolLF :=
  let prior := p.is_running
  let p1 : ThreadPoolLF := { p with is_running := false }
  if prior = false then p1
  else
    match waitForCompletion with
    | true => p1
    | false => p1

end ThreadPoolLF

/-- The shared state behind a `std::packaged_task` / `std::future` pair:
not yet ready, or ready with the callable's value or its captured
exception (exceptions modelled by their message string). -/
structure Holder (V : Type) where
  ready : Option (Except String V)

/-- `std::packaged_task::operator()`: invoke the stored callable and make
the shared state ready with either its return value or the exception it
threw; the user exception never propagates out of the invocation. -/
def invokeTask {V : Type} (f : Unit → Except String V) : Holder V :=
  ⟨some (f ())⟩

/-- `std::future::get`: `none` means the call blocks (state not ready); a
ready `Except.error e` re-raises `e`; a ready `Except.ok v` returns `v`. -/
def futureGet {V : Type} (h : Holder V) : Option (Except String V) :=
  h.ready

namespace LockFreeQueue

variable {T : Type}

theorem hGet_lt {heap : List (Option (LFNode T))} {n : Nat} {nd : LFNode T}
    (h : hGet heap n = some nd) : n < heap.length := by
  induction heap generalizing n with
  | nil => simp [hGet] at h
  | cons c rest ih =>
    cases n with
    | zero => simp
    | succ m => simpa using Nat.succ_lt_succ (ih (by simpa [hGet] using h))

theorem hGet_append {heap ext : List (Option (LFNode T))} {n : Nat} {nd : LFNode T}
    (h : hGet heap n = some nd) : hGet (heap ++ ext) n = some nd := by
  induction heap generalizing n with
  | nil => simp [hGet] at h
  | cons c rest ih =>
    cases n with
    | zero => simpa [hGet] using h
    | succ m => simpa [hGet] using ih (by simpa [hGet] using h)

theorem hGet_append_self (heap : List (Option (LFNode T))) (c : Option (LFNode T)) :
    hGet (heap ++ [c]) heap.length = c := by
  induction heap with
  | nil => rfl
  | cons x rest ih => simpa [hGet] using ih

theorem hGet_hSet_self {heap : List (Option (LFNode T))} {n : Nat}
    (h : n < heap.length) (c : Option (LFNode T)) : hGet (hSet heap n c) n = c := by
  induction heap generalizing n with
  | nil => simp at h
  | cons x rest ih =>
    cases n with
    | zero => rfl
    | succ m => simpa [hGet, hSet] using ih (by simpa using h)

theorem hGet_hSet_ne {heap : List (Option (LFNode T))} {m n : Nat}
    (h : m ≠ n) (c : Option (LFNode T)) : hGet (hSet heap m c) n = hGet heap n := by
  induction heap generalizing m n with
  | nil => rfl
  | cons x rest ih =>
    cases m with
    | zero =>
      cases n with
      | zero => exact absurd rfl h
      | succ k => rfl
    | succ j =>
      cases n with
      | zero => rfl
      | succ k =>
        simpa [hGet, hSet] using ih (m := j) (n := k) (fun e => h (congrArg Nat.succ e))

theorem hSet_length (heap : List (Option (LFNode T))) (n : Nat) (c : Option (LFNode T)) :
    (hSet heap n c).length = heap.length := by
  induction heap generalizing n with
  | nil => rfl
  | cons x rest ih =>
    cases n with
    | zero => rfl
    | succ m => simpa [hSet] using ih m

/-- The linked-list segment from address `a` (the current sentinel node) to
the final node `e`, whose payload nodes hold exactly the values `l` in
order.  Addresses strictly increase along the chain (an enqueue always links
a fresh, larger address), which yields acyclicity and freshness for free. -/
inductive seg (heap : List (Option (LFNode T))) : Nat → List T → Nat → Prop where
  | nil {e : Nat} {nd : LFNode T} (hn : hGet heap e = some nd)
      (hnext : nd.next = none) : seg heap e [] e
  | cons {a b e : Nat} {nd nb : LFNode T} {v : T} {vs : List T}
      (ha : hGet heap a = some nd) (hnext : nd.next = some b) (hab : a < b)
      (hb : hGet heap b = some nb) (hdata : nb.data = some v)
      (hrest : seg heap b vs e) : seg heap a (v :: vs) e

/-- Abstraction relation: the queue state is well formed (sentinel-headed
chain from `head_` ending at `tail_`) and holds exactly the values `l`. -/
def models (q : LockFreeQueue T) (l : List T) : Prop :=
  ∃ a e, q.head = some a ∧ q.tail = some e ∧ seg q.heap a l e

theorem seg_le {heap : List (Option (LFNode T))} {a e : Nat} {l : List T}
    (h : seg heap a l e) : a ≤ e := by
  induction h with
  | nil hn hnext => exact Nat.le_refl _
  | cons ha hnext hab hb hdata hrest ih => exact Nat.le_of_lt (Nat.lt_of_lt_of_le hab ih)

theorem seg_last {heap : List (Option (LFNode T))} {a e : Nat} {l : List T}
    (h : seg heap a l e) : ∃ nd, hGet heap e = some nd ∧ nd.next = none := by
  induction h with
  | nil hn hnext => exact ⟨_, hn, hnext⟩
  | cons ha hnext hab hb hdata hrest ih => exact ih

theorem seg_length_le {heap : List (Option (LFNode T))} {a e : Nat} {l : List T}
    (h : seg heap a l e) : a + l.length ≤ e := by
  induction h with
  | nil hn hnext => simp
  | cons ha hnext hab hb hdata hrest ih =>
    simp only [List.length_cons]
    omega

theorem seg_append {heap ext : List (Option (LFNode T))} {a e : Nat} {l : List T}
    (h : seg heap a l e) : seg (heap ++ ext) a l e := by
  induction h with
  | nil hn hnext => exact seg.nil (hGet_append hn) hnext
  | cons ha hnext hab hb hdata hrest ih =>
    exact seg.cons (hGet_append ha) hnext ‹_› (hGet_append hb) hdata ih

/-- Writing below the whole chain leaves the segment intact. -/
theorem seg_set_low {heap : List (Option (LFNode T))} {a e n : Nat} {l : List T}
    (c : Option (LFNode T)) (h : seg heap a l e) (hn : n < a) :
    seg (hSet heap n c) a l e := by
  induction h with
  | nil hnd hnext =>
    exact seg.nil (by rw [hGet_hSet_ne (Nat.ne_of_lt hn) c]; exact hnd) hnext
  | cons ha hnext hab hb hdata hrest ih =>
    exact seg.cons (by rw [hGet_hSet_ne (Nat.ne_of_lt hn) c]; exact ha) hnext hab
      (by rw [hGet_hSet_ne (Nat.ne_of_lt (Nat.lt_trans hn hab)) c]; exact hb) hdata
      (ih (Nat.lt_trans hn hab))

/-- The heap transformation performed by a sequential `enqueue`: append the
fresh node and redirect the old final node's next pointer to it; the chain
then models one more value. -/
theorem seg_extend {heap : List (Option (LFNode T))} {a e : Nat} {l : List T}
    (hs : seg heap a l e) (v : T) :
    ∀ {nde : LFNode T}, hGet heap e = some nde →
      seg (hSet (heap ++ [some ⟨some v, none⟩]) e (some ⟨nde.data, some heap.length⟩))
        a (l ++ [v]) heap.length := by
  induction hs with
  | nil hn hnext =>
    intro nde hnde
    rename_i e nd
    have he : e < heap.length := hGet_lt hn
    have he2 : e < (heap ++ [some (⟨some v, none⟩ : LFNode T)]).length := by
      simp only [List.length_append, List.length_cons, List.length_nil]
      omega
    have hne : e ≠ heap.length := Nat.ne_of_lt he
    have hfresh :
        hGet (hSet (heap ++ [some (⟨some v, none⟩ : LFNode T)]) e
            (some ⟨nde.data, some heap.length⟩)) heap.length =
          some ⟨some v, none⟩ := by
      rw [hGet_hSet_ne hne, hGet_append_self]
    exact seg.cons (hGet_hSet_self he2 _) rfl he hfresh rfl (seg.nil hfresh rfl)
  | cons ha hnext hab hb hdata hrest ih =>
    intro nde hnde
    rename_i a b e nd nb v' vs
    have hbe : b ≤ e := seg_le hrest
    have hae : a < e := Nat.lt_of_lt_of_le hab hbe
    have ha2 :
        hGet (hSet (heap ++ [some (⟨some v, none⟩ : LFNode T)]) e
            (some ⟨nde.data, some heap.length⟩)) a = some nd := by
      rw [hGet_hSet_ne (Nat.ne_of_lt hae).symm, hGet_append ha]
    have hb2 :
        ∃ nb2, hGet (hSet (heap ++ [some (⟨some v, none⟩ : LFNode T)]) e
            (some ⟨nde.data, some heap.length⟩)) b = some nb2 ∧
          nb2.data = some v' := by
      by_cases hbeq : b = e
      · subst hbeq
        have : nb = nde := by
          have := hb.symm.trans hnde
          exact Option.some.inj this
        subst this
        have hb3 : b < (heap ++ [some (⟨some v, none⟩ : LFNode T)]).length := by
          have := hGet_lt hb
          simp only [List.length_append, List.length_cons, List.length_nil]
          omega
        exact ⟨_, hGet_hSet_self hb3 _, hdata⟩
      · refine ⟨nb, ?_, hdata⟩
        rw [hGet_hSet_ne (fun e2 => hbeq e2.symm), hGet_append hb]
    obtain ⟨nb2, hb2get, hb2data⟩ := hb2
    exact seg.cons ha2 hnext hab hb2get hb2data (ih hnde)

/-- Sequential `enqueue` succeeds from any well-formed state and appends. -/
theorem enqueue_models {q : LockFreeQueue T} {l : List T} (h : models q l) (v : T) :
    ∃ q1, enqueue q v = some q1 ∧ models q1 (l ++ [v]) := by
  obtain ⟨a, e, hh, ht, hs⟩ := h
  obtain ⟨nde, hnde, hnone⟩ := seg_last hs
  have hlt : e < q.heap.length := hGet_lt hnde
  refine ⟨⟨hSet (q.heap ++ [some ⟨some v, none⟩]) e (some ⟨nde.data, some q.heap.length⟩),
      q.head, some q.heap.length⟩, ?_, ?_⟩
  · have hq1 : hGet (q.heap ++ [some (⟨some v, none⟩ : LFNode T)]) e = some nde :=
      hGet_append hnde
    simp [enqueue, ht, enqueueLoop, hq1, hnone]
  · exact ⟨a, q.heap.length, hh, rfl, seg_extend hs v hnde⟩

/-- Sequential `dequeue` on a non-empty well-formed queue returns the first
value, advances the sentinel, and deletes the old one. -/
theorem dequeue_models_cons {q : LockFreeQueue T} {v : T} {l : List T}
    (h : models q (v :: l)) :
    ∃ q1, dequeue q = some (some v, q1) ∧ models q1 l ∧
      q1.heap.length = q.heap.length := by
  obtain ⟨a, e, hh, ht, hs⟩ := h
  cases hs with
  | cons ha hnext hab hb hdata hrest =>
    rename_i b nd nb
    refine ⟨⟨hSet q.heap a none, some b, q.tail⟩, ?_, ?_, ?_⟩
    · simp [dequeue, hh, dequeueLoop, ha, hnext, hb, hdata]
    · exact ⟨b, e, rfl, ht, seg_set_low none hrest hab⟩
    · exact hSet_length q.heap a none

/-- Sequential `dequeue` on an empty well-formed queue returns false and
leaves the state untouched. -/
theorem dequeue_models_nil {q : LockFreeQueue T} (h : models q []) :
    dequeue q = some (none, q) := by
  obtain ⟨a, e, hh, ht, hs⟩ := h
  cases hs with
  | nil hn hnext =>
    simp only [dequeue, hh, dequeueLoop, hn, hnext]

theorem init_models : models (init (T := T)) [] :=
  ⟨0, 0, rfl, rfl, seg.nil rfl rfl⟩

theorem models_length_lt {q : LockFreeQueue T} {l : List T} (h : models q l) :
    l.length < q.heap.length := by
  obtain ⟨a, e, hh, ht, hs⟩ := h
  obtain ⟨nde, hnde, hnone⟩ := seg_last hs
  have h1 := seg_length_le hs
  have h2 := hGet_lt hnde
  omega

/-- The clear loop empties any well-formed queue, given fuel beyond the
number of stored values. -/
theorem clearLoop_models {l : List T} : ∀ {q : LockFreeQueue T} {fuel : Nat},
    models q l → l.length + 1 ≤ fuel →
    ∃ q1, clearLoop q fuel = some q1 ∧ models q1 [] := by
  induction l with
  | nil =>
    intro q fuel h hf
    match fuel, hf with
    | f + 1, _ => exact ⟨q, by simp [clearLoop, dequeue_models_nil h], h⟩
  | cons v vs ih =>
    intro q fuel h hf
    match fuel, hf with
    | f + 1, hf =>
      obtain ⟨q1, hdq, hm, _⟩ := dequeue_models_cons h
      obtain ⟨q2, hc, hm2⟩ := ih hm (by simpa using Nat.lt_succ_iff.mp hf)
      exact ⟨q2, by simp [clearLoop, hdq, hc], hm2⟩

/-- `clear` terminates within its fuel on any well-formed queue and leaves
it empty (and still well formed, sentinel included). -/
theorem clear_models {q : LockFreeQueue T} {l : List T} (h : models q l) :
    ∃ q1, clear q = some q1 ∧ models q1 [] := by
  have hlt := models_length_lt h
  exact clearLoop_models h (by omega)

theorem enqueueAll_models {l : List T} (vs : List T) :
    ∀ {q : LockFreeQueue T}, models q l →
    ∃ q1, enqueueAll q vs = some q1 ∧ models q1 (l ++ vs) := by
  induction vs generalizing l with
  | nil => intro q h; exact ⟨q, rfl, by simpa using h⟩
  | cons v vs ih =>
    intro q h
    obtain ⟨q1, he, hm⟩ := enqueue_models h v
    obtain ⟨q2, ha, hm2⟩ := ih hm
    refine ⟨q2, by simp [enqueueAll, he, ha], ?_⟩
    simpa [List.append_assoc] using hm2

theorem dequeueN_models {l : List T} : ∀ {q : LockFreeQueue T}, models q l →
    ∃ qf, dequeueN q l.length = some (l, qf) ∧ models qf [] := by
  induction l with
  | nil => intro q h; exact ⟨q, rfl, h⟩
  | cons v vs ih =>
    intro q h
    obtain ⟨q1, hdq, hm, _⟩ := dequeue_models_cons h
    obtain ⟨qf, hN, hmf⟩ := ih hm
    exact ⟨qf, by simp [dequeueN, hdq, hN], hmf⟩

end LockFreeQueue

namespace SafeQueue

variable {T : Type}

theorem pushAll_eq (l : List T) : ∀ (q : SafeQueue T),
    pushAll q l = ⟨q.data ++ l⟩ := by
  induction l with
  | nil => intro q; simp [pushAll]
  | cons v vs ih =>
    intro q
    rw [pushAll, ih (push q v)]
    simp [push, List.append_assoc]

theorem popN_all (l : List T) : popN (⟨l⟩ : SafeQueue T) l.length = some (l, ⟨[]⟩) := by
  induction l with
  | nil => rfl
  | cons v vs ih => simp [popN, pop, ih]

end SafeQueue

namespace ThreadPool

theorem dec64_pred {c : Nat} (h1 : 1 ≤ c) (h2 : c < W64) : dec64 c = c - 1 := by
  unfold dec64
  have he : c + (W64 - 1) = (c - 1) + W64 := by unfold W64 at *; omega
  rw [he, Nat.add_mod_right, Nat.mod_eq_of_lt (by unfold W64 at *; omega)]

theorem clearAux_spec : ∀ (l : List PoolTask) (c d : Nat), c = l.length → c < W64 →
    clearAux l c d = (0, d + l.length) := by
  intro l
  induction l with
  | nil =>
    intro c d hc _
    simp [clearAux, hc]
  | cons t r ih =>
    intro c d hc hlt
    have h1 : 1 ≤ c := by simp [hc]
    have h2 : c - 1 = r.length := by
      simp only [List.length_cons] at hc
      omega
    have h3 : c - 1 < W64 := by omega
    rw [show clearAux (t :: r) c d = clearAux r (dec64 c) (d + 1) from rfl,
      dec64_pred h1 hlt, ih (c - 1) (d + 1) h2 h3]
    simp only [List.length_cons, Prod.mk.injEq]
    exact ⟨trivial, by omega⟩

/-- The two-part counter invariant: `task_count_` equals the queue length,
and every successful submit is accounted for as finished, discarded or still
queued. -/
def counterOK (p : ThreadPool) : Prop :=
  p.task_count = p.task_queue.length ∧
  p.submitted = p.finished + p.discarded + p.task_queue.length

/-- Equation lemma: `submit` on a running pool. -/
theorem submit_run (p : ThreadPool) (t : PoolTask) (hr : p.is_running = true) :
    submit p t = Except.ok { p with
      task_count := (p.task_count + 1) % W64
      task_queue := p.task_queue ++ [t]
      submitted := p.submitted + 1 } := by
  unfold submit
  rw [hr]
  rfl

/-- Equation lemma: `submit` on a stopped pool throws before any mutation. -/
theorem submit_stopped (p : ThreadPool) (t : PoolTask) (hr : p.is_running = false) :
    submit p t = Except.error "ThreadPool is stopped" := by
  unfold submit
  rw [hr]
  rfl

theorem runOne_nil (p : ThreadPool) (hq : p.task_queue = []) : runOne p = p := by
  unfold runOne
  rw [hq]

theorem runOne_cons (p : ThreadPool) (t : PoolTask) (r : List PoolTask)
    (hq : p.task_queue = t :: r) :
    runOne p = { p with
      task_queue := r
      task_count := dec64 p.task_count
      finished := p.finished + 1
      executed := p.executed ++ [t] } := by
  unfold runOne
  rw [hq]

/-- Equation lemma: first `stop(true)` on a running pool only clears the
flag (the waits and joins mutate no modelled state). -/
theorem stop_run_wait (p : ThreadPool) (hr : p.is_running = true) :
    stop p true = { p with is_running := false } := by
  unfold stop stopExchange
  rw [hr]
  rfl

/-- Equation lemma: first `stop(false)` on a running pool clears the flag
and then the queue. -/
theorem stop_run_abandon (p : ThreadPool) (hr : p.is_running = true) :
    stop p false = clear_queue { p with is_running := false } := by
  unfold stop stopExchange
  rw [hr]
  rfl

/-- Equation lemma: `stop` on an already-stopped pool returns right after
the exchange (which stores the `false` already present). -/
theorem stop_stopped (p : ThreadPool) (w : Bool) (hr : p.is_running = false) :
    stop p w = { p with is_running := false } := by
  unfold stop stopExchange
  rw [hr]
  rfl

theorem applyEvent_submit (p : ThreadPool) (t : PoolTask) :
    applyEvent p (PoolEvent.submit t) =
      match submit p t with
      | Except.ok p1 => p1
      | Except.error _ => p := rfl

theorem applyEvent_ok (p : ThreadPool) (e : PoolEvent) (h : counterOK p)
    (hlen : p.task_queue.length + 1 < W64) :
    counterOK (applyEvent p e) ∧
      (applyEvent p e).task_queue.length ≤ p.task_queue.length + 1 := by
  obtain ⟨hc, hs⟩ := h
  cases e with
  | submit t =>
    by_cases hr : p.is_running
    · have hrun : applyEvent p (PoolEvent.submit t) = { p with
          task_count := (p.task_count + 1) % W64
          task_queue := p.task_queue ++ [t]
          submitted := p.submitted + 1 } := by
        rw [applyEvent_submit, submit_run p t hr]
      have hmod : (p.task_count + 1) % W64 = p.task_count + 1 :=
        Nat.mod_eq_of_lt (by omega)
      rw [hrun]
      refine ⟨⟨?_, ?_⟩, ?_⟩
      · dsimp only
        rw [hmod, hc, List.length_append]
        rfl
      · dsimp only
        rw [List.length_append]
        simp only [List.length_cons, List.length_nil]
        omega
      · dsimp only
        rw [List.length_append]
        simp only [List.length_cons, List.length_nil]
        omega
    · have hr2 : p.is_running = false := by
        simpa using hr
      have hrun : applyEvent p (PoolEvent.submit t) = p := by
        rw [applyEvent_submit, submit_stopped p t hr2]
      rw [hrun]
      exact ⟨⟨hc, hs⟩, by omega⟩
  | exec =>
    cases hq : p.task_queue with
    | nil =>
      have hrun : applyEvent p PoolEvent.exec = p := runOne_nil p hq
      rw [hrun]
      exact ⟨⟨hc, hs⟩, by simp [hq]⟩
    | cons t r =>
      have h1 : 1 ≤ p.task_count := by simp [hc, hq]
      have h2 : p.task_count < W64 := by
        rw [hc]
        omega
      have hrun : applyEvent p PoolEvent.exec = { p with
          task_queue := r
          task_count := dec64 p.task_count
          finished := p.finished + 1
          executed := p.executed ++ [t] } := runOne_cons p t r hq
      have hlen2 : p.task_queue.length = r.length + 1 := by
        rw [hq]
        rfl
      rw [hrun]
      refine ⟨⟨?_, ?_⟩, ?_⟩
      · dsimp only
        rw [dec64_pred h1 h2, hc, hlen2]
        omega
      · dsimp only
        rw [hlen2] at hs
        omega
      · dsimp only
        simp only [List.length_cons]
        omega
  | stopCall w =>
    by_cases hr : p.is_running
    · cases w with
      | true =>
        have hrun : applyEvent p (PoolEvent.stopCall true) =
            { p with is_running := false } := stop_run_wait p hr
        rw [hrun]
        exact ⟨⟨hc, hs⟩, by dsimp only; omega⟩
      | false =>
        have hcl : clearAux p.task_queue p.task_count p.discarded =
            (0, p.discarded + p.task_queue.length) :=
          clearAux_spec _ _ _ hc (by omega)
        have hrun : applyEvent p (PoolEvent.stopCall false) = { p with
            is_running := false
            task_queue := []
            task_count := 0
            discarded := p.discarded + p.task_queue.length } := by
          rw [show applyEvent p (PoolEvent.stopCall false) = stop p false from rfl,
            stop_run_abandon p hr]
          unfold clear_queue
          dsimp only
          rw [hcl]
        rw [hrun]
        refine ⟨⟨rfl, ?_⟩, ?_⟩
        · dsimp only
          simp only [List.length_nil]
          omega
        · dsimp only
          simp only [List.length_nil]
          omega
    · have hr2 : p.is_running = false := by
        simpa using hr
      have hrun : applyEvent p (PoolEvent.stopCall w) =
          { p with is_running := false } := stop_stopped p w hr2
      rw [hrun]
      exact ⟨⟨hc, hs⟩, by dsimp only; omega⟩

theorem foldl_inv : ∀ (evs : List PoolEvent) (p : ThreadPool),
    counterOK p → p.task_queue.length + evs.length < W64 →
    counterOK (evs.foldl applyEvent p) := by
  intro evs
  induction evs with
  | nil => intro p h _; exact h
  | cons e rest ih =>
    intro p h hb
    have hlen : p.task_queue.length + 1 < W64 := by
      simp only [List.length_cons] at hb
      omega
    obtain ⟨h1, h2⟩ := applyEvent_ok p e h hlen
    refine ih (applyEvent p e) h1 ?_
    simp only [List.length_cons] at hb
    omega

theorem runTrace_counterOK (evs : List PoolEvent) (h : evs.length < W64) :
    counterOK (runTrace evs) := by
  unfold runTrace
  exact foldl_inv evs initial ⟨rfl, rfl⟩ (by simpa [initial] using h)

/-- Draining the queue executes exactly the queued tasks, in order. -/
theorem runN_exec : ∀ (q : List PoolTask) (p : ThreadPool), p.task_queue = q →
    (runN p q.length).executed = p.executed ++ q ∧ (runN p q.length).task_queue = [] := by
  intro q
  induction q with
  | nil => intro p hp; exact ⟨by simp [runN], by simp [runN, hp]⟩
  | cons t r ih =>
    intro p hp
    have hone : runOne p = { p with
        task_queue := r
        task_count := dec64 p.task_count
        finished := p.finished + 1
        executed := p.executed ++ [t] } := by
      simp [runOne, hp]
    obtain ⟨h1, h2⟩ := ih (runOne p) (by simp [hone])
    refine ⟨?_, by simpa [runN] using h2⟩
    rw [show runN p (t :: r).length = runN (runOne p) r.length from rfl] at *
    rw [h1, hone]
    simp

theorem runAll_exec (p : ThreadPool) :
    (runAll p).executed = p.executed ++ p.task_queue ∧ (runAll p).task_queue = [] := by
  unfold runAll
  exact runN_exec p.task_queue p rfl

/-- `stop` never assigns `wait_for_completion_`. -/
theorem stop_wfc (p : ThreadPool) (w : Bool) :
    (stop p w).wait_for_completion = p.wait_for_completion := by
  by_cases hr : p.is_running <;> by_cases hw : w <;>
    simp [stop, stopExchange, clear_queue, hr, hw]

end ThreadPool

example :
    LockFreeQueue.dequeue
        (⟨[some ⟨none, some 1⟩, some ⟨some 5, none⟩], some 0, some 1⟩ : LockFreeQueue Nat) =
      some (some 5, ⟨[none, some ⟨some 5, none⟩], some 1, some 1⟩) := by
  rfl

namespace LockFreeQueue

variable {T : Type}

/-- The sentinel invariant: `head_` points at a live node (the sentinel),
and the node reached from its `next` pointer, when there is one, carries a
live payload (the first stored value). -/
def sentinelAtHead (q : LockFreeQueue T) : Prop :=
  ∃ a nd, q.head = some a ∧ hGet q.heap a = some nd ∧
    ∀ b, nd.next = some b → ∃ nb v, hGet q.heap b = some nb ∧ nb.data = some v

theorem models_sentinel {q : LockFreeQueue T} {l : List T} (h : models q l) :
    sentinelAtHead q := by
  obtain ⟨a, e, hh, ht, hs⟩ := h
  cases hs with
  | nil hn hnext =>
    refine ⟨a, _, hh, hn, fun b hb => ?_⟩
    rw [hnext] at hb
    cases hb
  | cons ha hnext hab hb hdata hrest =>
    refine ⟨a, _, hh, ha, fun b0 hb0 => ?_⟩
    rw [hnext] at hb0
    cases hb0
    exact ⟨_, _, hb, hdata⟩

theorem models_first_payload {q : LockFreeQueue T} {l : List T} (h : models q l) :
    ∀ a nd b nb, q.head = some a → hGet q.heap a = some nd →
      nd.next = some b → hGet q.heap b = some nb → nb.data = l.head? := by
  obtain ⟨a, e, hh, ht, hs⟩ := h
  intro a0 nd0 b0 nb0 hh0 ha0 hn0 hb0
  have haa : a0 = a := by
    rw [hh] at hh0
    exact (Option.some.inj hh0).symm
  subst haa
  cases hs with
  | nil hn hnext =>
    rw [hn] at ha0
    cases Option.some.inj ha0
    rw [hnext] at hn0
    cases hn0
  | cons ha hnext hab hb hdata hrest =>
    rw [ha] at ha0
    cases Option.some.inj ha0
    rw [hnext] at hn0
    cases Option.some.inj hn0
    rw [hb] at hb0
    cases Option.some.inj hb0
    rw [hdata]
    rfl

end LockFreeQueue

namespace ThreadPool

/-- Overwriting `is_running_` with the value it already holds is a no-op. -/
theorem run_false_eta (q : ThreadPool) (h : q.is_running = false) :
    ({ q with is_running := false } : ThreadPool) = q := by
  obtain ⟨r, a, b, c, d, e, f, g⟩ := q
  simp only at h
  rw [h]

end ThreadPool

namespace ThreadPoolLF

/-- The lock-free-variant `stop` always just stores `false` into the flag:
the early return, the drain wait and the joins mutate no modelled state
(this variant never clears the queue). -/
theorem stop_eq (p : ThreadPoolLF) (w : Bool) :
    stop p w = { p with is_running := false } := by
  cases hr : p.is_running <;> cases w <;> simp [stop, hr]

theorem run_false_eta_lf (q : ThreadPoolLF) (h : q.is_running = false) :
    ({ q with is_running := false } : ThreadPoolLF) = q := by
  obtain ⟨r, a, b⟩ := q
  simp only at h
  rw [h]

/-- Equation lemma: the lock-free-variant `submit` on a stopped pool throws
before any mutation. -/
theorem submit_stopped_lf (p : ThreadPoolLF) (t : PoolTask) (hr : p.is_running = false) :
    submit p t = Except.error "ThreadPool is not running" := by
  unfold submit
  rw [hr]
  rfl

end ThreadPoolLF

/-- Claim C1: sequential FIFO correctness of both queue variants.  For every
value list, a single producer enqueueing it in order (LockFreeQueue::enqueue
resp. SafeQueue::push, starting from a freshly constructed queue) and a
single consumer then dequeueing (dequeue resp. pop) receives exactly the same
list in the same order, and the call after the last value returns false
(modelled as a `none` result with the state unchanged). -/
theorem claim_C1 (T : Type) (vs : List T) :
    (∃ q qf, LockFreeQueue.enqueueAll LockFreeQueue.init vs = some q ∧
      LockFreeQueue.dequeueN q vs.length = some (vs, qf) ∧
      LockFreeQueue.dequeue qf = some (none, qf)) ∧
    (SafeQueue.pushAll ⟨[]⟩ vs = (⟨vs⟩ : SafeQueue T) ∧
      SafeQueue.popN (⟨vs⟩ : SafeQueue T) vs.length = some (vs, ⟨[]⟩) ∧
      SafeQueue.pop (⟨[]⟩ : SafeQueue T) = (none, ⟨[]⟩)) := by
  constructor
  · obtain ⟨q, he, hm⟩ := LockFreeQueue.enqueueAll_models vs LockFreeQueue.init_models
    rw [List.nil_append] at hm
    obtain ⟨qf, hd, hmf⟩ := LockFreeQueue.dequeueN_models hm
    exact ⟨q, qf, he, hd, LockFreeQueue.dequeue_models_nil hmf⟩
  · refine ⟨?_, SafeQueue.popN_all vs, rfl⟩
    rw [SafeQueue.pushAll_eq]
    rfl

/-- Claim C2: dequeue/pop contract of both variants.  On a well-formed
lock-free queue holding `l`, `dequeue` returns true with the head element
(advancing the queue) iff `l` is non-empty, and returns false leaving both
the queue and the out-parameter untouched iff `l` is empty; `SafeQueue::pop`
does the same on its deque contents.  The `none` result component models
`return false` with the caller's `value` unmodified. -/
theorem claim_C2 (T : Type) (q : LockFreeQueue T) (l : List T)
    (h : LockFreeQueue.models q l) (sq : SafeQueue T) :
    (l = [] → LockFreeQueue.dequeue q = some (none, q)) ∧
    (∀ v t, l = v :: t → ∃ q1, LockFreeQueue.dequeue q = some (some v, q1) ∧
      LockFreeQueue.models q1 t) ∧
    (sq.data = [] → SafeQueue.pop sq = (none, sq)) ∧
    (∀ v t, sq.data = v :: t → SafeQueue.pop sq = (some v, ⟨t⟩)) := by
  refine ⟨?_, ?_, ?_, ?_⟩
  · intro he
    subst he
    exact LockFreeQueue.dequeue_models_nil h
  · intro v t he
    subst he
    obtain ⟨q1, hd, hm, _⟩ := LockFreeQueue.dequeue_models_cons h
    exact ⟨q1, hd, hm⟩
  · intro hd
    simp [SafeQueue.pop, hd]
  · intro v t hd
    simp [SafeQueue.pop, hd]

/-- Witness for C2 at a concrete one-element lock-free queue and a concrete
SafeQueue. -/
theorem claim_C2_witness :
    LockFreeQueue.models
        (⟨[some ⟨none, some 1⟩, some ⟨some 5, none⟩], some 0, some 1⟩ : LockFreeQueue Nat)
        [5] ∧
    (∃ q1, LockFreeQueue.dequeue
        (⟨[some ⟨none, some 1⟩, some ⟨some 5, none⟩], some 0, some 1⟩ : LockFreeQueue Nat) =
          some (some 5, q1) ∧ LockFreeQueue.models q1 []) := by
  have hM : LockFreeQueue.models
      (⟨[some ⟨none, some 1⟩, some ⟨some 5, none⟩], some 0, some 1⟩ : LockFreeQueue Nat)
      [5] :=
    ⟨0, 1, rfl, rfl,
      LockFreeQueue.seg.cons rfl rfl (by omega) rfl rfl (LockFreeQueue.seg.nil rfl rfl)⟩
  exact ⟨hM, (claim_C2 Nat _ [5] hM ⟨[7]⟩).2.1 5 [] rfl⟩

/-- Claim C3 is a code bug, evaluated here.  The claim (and the spec, and the
comment above the drain loop in the source) say the worker drains and
executes remaining tasks after shutdown iff the pool was stopped with
`stop(true)`.  But `wait_for_completion_` is initialised to `true` by the
constructor and never assigned again — in particular `stop` does not record
its argument — so the worker's drain branch is always taken.  Concretely:
submit one task, then let `stop(false)`'s exchange flip the running flag; if
the worker reaches its post-loop phase before `stop`'s `clear_queue`, it
executes the supposedly abandoned task. -/
theorem claim_C3 :
    (∀ (p : ThreadPool) (w : Bool),
        (ThreadPool.stop p w).wait_for_completion = p.wait_for_completion) ∧
    ThreadPool.initial.wait_for_completion = true ∧
    (ThreadPool.stopExchange
        (applyEvent ThreadPool.initial
          (PoolEvent.submit (Except.ok ())))).2.wait_for_completion = true ∧
    (ThreadPool.workerFinal (ThreadPool.stopExchange
        (applyEvent ThreadPool.initial
          (PoolEvent.submit (Except.ok ())))).2).executed = [Except.ok ()] ∧
    (ThreadPool.workerFinal (ThreadPool.stopExchange
        (applyEvent ThreadPool.initial
          (PoolEvent.submit (Except.ok ())))).2).task_queue = [] := by
  refine ⟨ThreadPool.stop_wfc, rfl, rfl, ?_, ?_⟩ <;> rfl

/-- Claim C4: outstanding-counter discipline.  Along every sequential
interleaving of submits, task executions and stop calls (fewer than 2^64
events, so the `size_t` counter cannot saturate), the counter equals
submitted − (completed + discarded), that difference is never negative, and
`pending_tasks()` reads zero exactly when every submitted task has been
completed or abandoned. -/
theorem claim_C4 (evs : List PoolEvent) (h : evs.length < W64) :
    (runTrace evs).finished + (runTrace evs).discarded ≤ (runTrace evs).submitted ∧
    (runTrace evs).task_count =
      (runTrace evs).submitted - ((runTrace evs).finished + (runTrace evs).discarded) ∧
    ((runTrace evs).submitted = (runTrace evs).finished + (runTrace evs).discarded →
      ThreadPool.pending_tasks (runTrace evs) = 0) := by
  obtain ⟨hc, hs⟩ := ThreadPool.runTrace_counterOK evs h
  refine ⟨by omega, by omega, fun h2 => ?_⟩
  unfold ThreadPool.pending_tasks
  omega

/-- Witness for C4 on the two-event trace submit-then-execute. -/
theorem claim_C4_witness :
    ([PoolEvent.submit (Except.ok ()), PoolEvent.exec].length < W64) ∧
    ThreadPool.pending_tasks
      (runTrace [PoolEvent.submit (Except.ok ()), PoolEvent.exec]) = 0 :=
  ⟨by decide,
   (claim_C4 [PoolEvent.submit (Except.ok ()), PoolEvent.exec] (by decide)).2.2 (by decide)⟩

/-- Claim C5: submission after stop.  With `is_running()` false, `submit`
throws its stopped error ("ThreadPool is stopped" in the SafeQueue-based
pool, "ThreadPool is not running" in the lock-free-queue variant) before any
mutation, so the pool state — in particular `pending_tasks()` — is
untouched by the failed call. -/
theorem claim_C5 (p : ThreadPool) (pB : ThreadPoolLF) (t tB : PoolTask)
    (h : p.is_running = false) (hB : pB.is_running = false) :
    ThreadPool.submit p t = Except.error "ThreadPool is stopped" ∧
    applyEvent p (PoolEvent.submit t) = p ∧
    ThreadPool.pending_tasks (applyEvent p (PoolEvent.submit t)) =
      ThreadPool.pending_tasks p ∧
    ThreadPoolLF.submit pB tB = Except.error "ThreadPool is not running" := by
  have h1 := ThreadPool.submit_stopped p t h
  have h2 : applyEvent p (PoolEvent.submit t) = p := by
    rw [ThreadPool.applyEvent_submit, h1]
  exact ⟨h1, h2, by rw [h2], ThreadPoolLF.submit_stopped_lf pB tB hB⟩

/-- Witness for C5 at concrete stopped pools. -/
theorem claim_C5_witness :
    (⟨false, true, 0, [], 0, 0, 0, []⟩ : ThreadPool).is_running = false ∧
    ThreadPool.submit ⟨false, true, 0, [], 0, 0, 0, []⟩ (Except.ok ()) =
      Except.error "ThreadPool is stopped" ∧
    ThreadPoolLF.submit ⟨false, 0, []⟩ (Except.ok ()) =
      Except.error "ThreadPool is not running" :=
  ⟨rfl,
   (claim_C5 ⟨false, true, 0, [], 0, 0, 0, []⟩ ⟨false, 0, []⟩
      (Except.ok ()) (Except.ok ()) rfl rfl).1,
   (claim_C5 ⟨false, true, 0, [], 0, 0, 0, []⟩ ⟨false, 0, []⟩
      (Except.ok ()) (Except.ok ()) rfl rfl).2.2.2⟩

/-- Claim C6: future-exception round-trip.  Invoking the packaged task of a
callable that throws makes its shared state ready with the captured
exception, which `future::get` re-raises; the invocation itself propagates
nothing, so the worker survives (`runOne` never changes the running flag),
and a task submitted afterwards is accepted and executed when the queue is
drained — the pool remains usable. -/
theorem claim_C6 (V : Type) (emsg : String) (s : ThreadPool) (t : PoolTask)
    (h : s.is_running = true) :
    invokeTask (V := V) (fun _ => Except.error emsg) = ⟨some (Except.error emsg)⟩ ∧
    futureGet (invokeTask (V := V) (fun _ => Except.error emsg)) =
      some (Except.error emsg) ∧
    (ThreadPool.runOne s).is_running = s.is_running ∧
    (∃ s1, ThreadPool.submit s t = Except.ok s1 ∧
      (ThreadPool.runAll s1).executed = s.executed ++ s.task_queue ++ [t] ∧
      (ThreadPool.runAll s1).task_queue = []) := by
  refine ⟨rfl, rfl, ?_, ?_⟩
  · cases hq : s.task_queue with
    | nil => rw [ThreadPool.runOne_nil s hq]
    | cons a b => rw [ThreadPool.runOne_cons s a b hq]
  · refine ⟨_, ThreadPool.submit_run s t h, ?_, ?_⟩
    · rw [(ThreadPool.runAll_exec _).1]
      simp [List.append_assoc]
    · exact (ThreadPool.runAll_exec _).2

/-- Witness for C6: a "Test exception" callable on a fresh pool. -/
theorem claim_C6_witness :
    ThreadPool.initial.is_running = true ∧
    futureGet (invokeTask (V := Nat) (fun _ => Except.error "Test exception")) =
      some (Except.error "Test exception") :=
  ⟨rfl, (claim_C6 Nat "Test exception" ThreadPool.initial (Except.ok ()) rfl).2.1⟩

/-- Claim C7: stop idempotence in both pool variants.  The first stop flips
`is_running()` to false via the atomic exchange; any stop applied to an
already-stopped pool is a state no-op; and `is_running()` is false after any
stop call with either argument. -/
theorem claim_C7 (p : ThreadPool) (pB : ThreadPoolLF) (w w2 : Bool) :
    ((ThreadPool.stop p w).is_running = false ∧
     ThreadPool.stop (ThreadPool.stop p w) w2 = ThreadPool.stop p w ∧
     (p.is_running = false → ThreadPool.stop p w = p)) ∧
    ((ThreadPoolLF.stop pB w).is_running = false ∧
     ThreadPoolLF.stop (ThreadPoolLF.stop pB w) w2 = ThreadPoolLF.stop pB w ∧
     (pB.is_running = false → ThreadPoolLF.stop pB w = pB)) := by
  have hoff : (ThreadPool.stop p w).is_running = false := by
    by_cases hr : p.is_running
    · cases w with
      | true => rw [ThreadPool.stop_run_wait p hr]
      | false => rw [ThreadPool.stop_run_abandon p hr]; rfl
    · rw [ThreadPool.stop_stopped p w (by simpa using hr)]
  have hoffB : (ThreadPoolLF.stop pB w).is_running = false := by
    rw [ThreadPoolLF.stop_eq]
  refine ⟨⟨hoff, ?_, ?_⟩, ⟨hoffB, ?_, ?_⟩⟩
  · rw [ThreadPool.stop_stopped _ w2 hoff, ThreadPool.run_false_eta _ hoff]
  · intro h0
    rw [ThreadPool.stop_stopped p w h0, ThreadPool.run_false_eta p h0]
  · rw [ThreadPoolLF.stop_eq, ThreadPoolLF.run_false_eta_lf _ hoffB]
  · intro h0
    rw [ThreadPoolLF.stop_eq, ThreadPoolLF.run_false_eta_lf pB h0]

/-- Witness for C7: stopping already-stopped concrete pools is a no-op. -/
theorem claim_C7_witness :
    ThreadPool.stop ⟨false, true, 0, [], 0, 0, 0, []⟩ true =
      (⟨false, true, 0, [], 0, 0, 0, []⟩ : ThreadPool) ∧
    ThreadPoolLF.stop ⟨false, 0, []⟩ false = (⟨false, 0, []⟩ : ThreadPoolLF) :=
  ⟨(claim_C7 ⟨false, true, 0, [], 0, 0, 0, []⟩ ⟨false, 0, []⟩ true true).1.2.2 rfl,
   (claim_C7 ⟨false, true, 0, [], 0, 0, 0, []⟩ ⟨false, 0, []⟩ false true).2.2.2 rfl⟩

/-- Claim C8: sentinel invariant of the lock-free queue.  On every
well-formed state the head pointer designates a live sentinel node whose
successor, if any, carries the first stored payload; the invariant holds
after construction and is preserved by sequential enqueue, dequeue and
clear (all of which also preserve well-formedness). -/
theorem claim_C8 (T : Type) (q : LockFreeQueue T) (l : List T)
    (h : LockFreeQueue.models q l) :
    LockFreeQueue.sentinelAtHead q ∧
    (∀ a nd b nb, q.head = some a → LockFreeQueue.hGet q.heap a = some nd →
      nd.next = some b → LockFreeQueue.hGet q.heap b = some nb →
      nb.data = l.head?) ∧
    (∀ v, ∃ q1, LockFreeQueue.enqueue q v = some q1 ∧
      LockFreeQueue.models q1 (l ++ [v]) ∧ LockFreeQueue.sentinelAtHead q1) ∧
    (∃ r, LockFreeQueue.dequeue q = some r ∧
      LockFreeQueue.models r.2 l.tail ∧ LockFreeQueue.sentinelAtHead r.2) ∧
    (∃ q1, LockFreeQueue.clear q = some q1 ∧
      LockFreeQueue.models q1 [] ∧ LockFreeQueue.sentinelAtHead q1) ∧
    LockFreeQueue.models (LockFreeQueue.init (T := T)) [] ∧
    LockFreeQueue.sentinelAtHead (LockFreeQueue.init (T := T)) := by
  refine ⟨LockFreeQueue.models_sentinel h, LockFreeQueue.models_first_payload h,
    ?_, ?_, ?_, LockFreeQueue.init_models,
    LockFreeQueue.models_sentinel LockFreeQueue.init_models⟩
  · intro v
    obtain ⟨q1, he, hm⟩ := LockFreeQueue.enqueue_models h v
    exact ⟨q1, he, hm, LockFreeQueue.models_sentinel hm⟩
  · cases l with
    | nil =>
      exact ⟨(none, q), LockFreeQueue.dequeue_models_nil h, h,
        LockFreeQueue.models_sentinel h⟩
    | cons v t =>
      obtain ⟨q1, hd, hm, _⟩ := LockFreeQueue.dequeue_models_cons h
      exact ⟨(some v, q1), hd, hm, LockFreeQueue.models_sentinel hm⟩
  · obtain ⟨q1, hcl, hm⟩ := LockFreeQueue.clear_models h
    exact ⟨q1, hcl, hm, LockFreeQueue.models_sentinel hm⟩

/-- Witness for C8 at a concrete one-element lock-free queue. -/
theorem claim_C8_witness :
    LockFreeQueue.models
        (⟨[some ⟨none, some 2⟩, none, some ⟨some 9, none⟩], some 0, some 2⟩ :
          LockFreeQueue Nat) [9] ∧
    LockFreeQueue.sentinelAtHead
      (⟨[some ⟨none, some 2⟩, none, some ⟨some 9, none⟩], some 0, some 2⟩ :
        LockFreeQueue Nat) := by
  have hM : LockFreeQueue.models
      (⟨[some ⟨none, some 2⟩, none, some ⟨some 9, none⟩], some 0, some 2⟩ :
        LockFreeQueue Nat) [9] :=
    ⟨0, 2, rfl, rfl,
      LockFreeQueue.seg.cons rfl rfl (by omega) rfl rfl (LockFreeQueue.seg.nil rfl rfl)⟩
  exact ⟨hM, (claim_C8 Nat _ [9] hM).1⟩

/-- Claim C9: `SafeQueue::block_pop` never returns false.  Whenever the call
returns (it keeps waiting on the condition variable while the deque is
empty, so a `none` result models a call still blocked), the returned boolean
is `true` and the front element has been moved out and removed. -/
theorem claim_C9 (T : Type) (sq : SafeQueue T) (b : Bool) (v : T) (q1 : SafeQueue T)
    (h : SafeQueue.block_pop sq = some (b, v, q1)) :
    b = true ∧ sq.data = v :: q1.data := by
  cases hd : sq.data with
  | nil => simp [SafeQueue.block_pop, hd] at h
  | cons x xs =>
    simp only [SafeQueue.block_pop, hd, Option.some.injEq, Prod.mk.injEq] at h
    obtain ⟨hb, hv, hq⟩ := h
    subst hv
    rw [← hq]
    exact ⟨hb.symm, rfl⟩

/-- Witness for C9 on a concrete one-element SafeQueue. -/
theorem claim_C9_witness :
    SafeQueue.block_pop (⟨[3]⟩ : SafeQueue Nat) = some (true, 3, ⟨[]⟩) ∧
    (true = true ∧ ([3] : List Nat) = 3 :: ([] : List Nat)) :=
  ⟨rfl, claim_C9 Nat ⟨[3]⟩ true 3 ⟨[]⟩ rfl⟩

/-- Claim C10: `dequeue` on a queue whose `head_` is null — the state move
construction or move assignment leaves in the source — returns false
(`none` result) without dereferencing the null pointer and without touching
the state: the loop checks `old_head == nullptr` before any dereference, so
no undefined behaviour (a `none` overall result) occurs. -/
theorem claim_C10 (T : Type) (q : LockFreeQueue T) :
    LockFreeQueue.dequeue (LockFreeQueue.movedFrom q) =
      some (none, LockFreeQueue.movedFrom q) ∧
    (LockFreeQueue.movedFrom q).head = none ∧
    (LockFreeQueue.movedFrom q).tail = none :=
  ⟨rfl, rfl, rfl⟩
